import Mathlib

/-!
Verification of the MarkLoud conversion pipeline (`internal/convert`,
mirrored from the current evolutionary copy of `convert.go`).

Go strings are modelled as `List Char`; the inputs exercised here are
ASCII, where Go's byte length coincides with the character count.
Scanning functions that Go expresses with `regexp` are embedded as
fuel-indexed structural recursions (fuel is always at least the length
of the remaining input, so the fuel-exhausted branch is unreachable and
is defined to agree with the natural value).
-/

namespace MarkLoud

/-- ASCII white space as trimmed by Go's `strings.TrimSpace`:
space, \t, \n, \v, \f, \r. -/
def goIsSpace (c : Char) : Bool :=
  c == ' ' || c == '\t' || c == '\n' || c == Char.ofNat 11 || c == Char.ofNat 12 || c == '\r'

/-- The character class `\s` of Go's `regexp` (RE2): [\t\n\f\r ]. -/
def regexIsSpace (c : Char) : Bool :=
  c == '\t' || c == '\n' || c == Char.ofNat 12 || c == '\r' || c == ' '

/-- Drop the maximal run of Go white space at the head of the list. -/
def dropLeadingSpace : List Char → List Char
  | [] => []
  | c :: rest => if goIsSpace c then dropLeadingSpace rest else c :: rest

/-- `strings.TrimSpace` on an ASCII string. -/
def goTrim (l : List Char) : List Char :=
  ((dropLeadingSpace ((dropLeadingSpace l).reverse)).reverse)

/-- `strings.Join(xs, sep)`. -/
def goJoin (sep : List Char) : List (List Char) → List Char
  | [] => []
  | [x] => x
  | x :: xs => x ++ sep ++ goJoin sep xs

/-- Fuel-indexed scanner for `strings.Split(text, "\n\n")`:
split on each leftmost non-overlapping occurrence of two newlines. -/
def splitNNAux : Nat → List Char → List Char → List (List Char)
  | 0, acc, rest => [acc.reverse ++ rest]
  | _ + 1, acc, [] => [acc.reverse]
  | fuel + 1, acc, '\n' :: '\n' :: rest => acc.reverse :: splitNNAux fuel [] rest
  | fuel + 1, acc, c :: rest => splitNNAux fuel (c :: acc) rest

/-- `strings.Split(text, "\n\n")` (convert.go line 75). -/
def splitNN (text : List Char) : List (List Char) :=
  splitNNAux text.length [] text

/-- End-of-sentence punctuation class `[.!?]`. -/
def isPunct (c : Char) : Bool :=
  c == '.' || c == '!' || c == '?'

/-- Drop the maximal run of regex white space (`\s+`, greedy). -/
def dropRegexSpaces : List Char → List Char
  | [] => []
  | c :: rest => if regexIsSpace c then dropRegexSpaces rest else c :: rest

/-- Whether the list starts with a regex white-space character. -/
def headIsSpace : List Char → Bool
  | [] => false
  | c :: _ => regexIsSpace c

/-- Fuel-indexed scanner for `regexp.MustCompile("[.!?]\\s+").Split(para, -1)`:
a delimiter is a punctuation character followed by a maximal nonempty run of
white space; the delimiter (punctuation included) is consumed. -/
def splitSentAux : Nat → List Char → List Char → List (List Char)
  | 0, acc, rest => [acc.reverse ++ rest]
  | _ + 1, acc, [] => [acc.reverse]
  | fuel + 1, acc, c :: rest =>
    if isPunct c && headIsSpace rest then
      acc.reverse :: splitSentAux fuel [] (dropRegexSpaces rest)
    else
      splitSentAux fuel (c :: acc) rest

/-- Sentence split of an over-long paragraph (convert.go line 98). -/
def splitSentences (para : List Char) : List (List Char) :=
  splitSentAux para.length [] para

/-- State of the inner sentence-packing loop (convert.go lines 99-120):
output sub-chunks flushed so far, the sentence buffer, and its tracked
length `bufLen`. -/
structure SentState where
  out : List (List Char)
  buf : List (List Char)
  bufLen : Nat
  deriving Repr, DecidableEq

/-- Flushing the sentence buffer: `TrimSpace(strings.Join(buf, " "))`
appended to the output when the buffer is nonempty. -/
def sentFlush (st : SentState) : List (List Char) :=
  if st.buf.isEmpty then st.out else st.out ++ [goTrim (goJoin [' '] st.buf)]

/-- One iteration of the sentence-packing loop for sentence `s0`
(convert.go lines 101-117). -/
def sentStep (m : Nat) (st : SentState) (s0 : List Char) : SentState :=
  let s := goTrim s0
  if s.isEmpty then st
  else if st.bufLen + s.length + 1 > m then
    { out := sentFlush st, buf := [s], bufLen := s.length }
  else
    { out := st.out, buf := st.buf ++ [s], bufLen := st.bufLen + s.length + 1 }

/-- The sub-chunks an over-long paragraph contributes directly to the
output (convert.go lines 97-121). -/
def sentenceChunks (m : Nat) (para : List Char) : List (List Char) :=
  sentFlush ((splitSentences para).foldl (sentStep m) ⟨[], [], 0⟩)

/-- State of the outer paragraph loop (convert.go lines 76-88):
completed chunks, the paragraph buffer `current`, and its tracked
length `currentLen`. -/
structure ChunkState where
  chunks : List (List Char)
  current : List (List Char)
  currentLen : Nat
  deriving Repr, DecidableEq

/-- The `flush` closure (convert.go lines 81-88). -/
def chunkFlush (st : ChunkState) : ChunkState :=
  if st.current.isEmpty then st
  else { chunks := st.chunks ++ [goTrim (goJoin ['\n', '\n'] st.current)], current := [], currentLen := 0 }

/-- One iteration of the paragraph loop (convert.go lines 90-132). -/
def paraStep (m : Nat) (st : ChunkState) (para0 : List Char) : ChunkState :=
  let para := goTrim para0
  if para.isEmpty then st
  else if para.length > m then
    { st with chunks := st.chunks ++ sentenceChunks m para }
  else if st.currentLen + para.length + 2 ≤ m then
    { st with current := st.current ++ [para], currentLen := st.currentLen + para.length + 2 }
  else
    let st1 := chunkFlush st
    { chunks := st1.chunks, current := [para], currentLen := para.length }

/-- The effective limit: `maxChars <= 0` substitutes the default 4000
(convert.go lines 72-74). -/
def effMax (maxChars : Int) : Nat :=
  if maxChars ≤ 0 then 4000 else maxChars.toNat

/-- `chunkText` (convert.go lines 71-142): paragraph packing with a
final flush and a filter dropping chunks empty after trimming. -/
def chunkText (text : List Char) (maxChars : Int) : List (List Char) :=
  let m := effMax maxChars
  let st := (splitNN text).foldl (paraStep m) ⟨[], [], 0⟩
  ((chunkFlush st).chunks).filter (fun c => !(goTrim c).isEmpty)

/-! ### stripMarkdown (convert.go lines 52-69)

Each regular-expression pass of `stripMarkdown` is embedded as a direct
scanner implementing the replace-all semantics (leftmost match,
non-overlapping, continue after the match) of that expression. -/

/-- After an opening fence, find the earliest closing triple backtick
(the non-greedy `.*?` of `codeFenceRe`) and return the remainder. -/
def afterFenceClose : List Char → Option (List Char)
  | '`' :: '`' :: '`' :: rest => some rest
  | _ :: rest => afterFenceClose rest
  | [] => none

/-- Pass 1, `codeFenceRe = "(?s)```.*?```"` replaced by the empty
string: each leftmost triple backtick paired with the earliest later
triple backtick is removed together with the span between them; an
unpaired opening fence has no match and is kept. -/
def removeFencesAux : Nat → List Char → List Char
  | 0, l => l
  | fuel + 1, '`' :: '`' :: '`' :: rest =>
    match afterFenceClose rest with
    | some rem => removeFencesAux fuel rem
    | none => '`' :: '`' :: '`' :: rest
  | fuel + 1, c :: rest => c :: removeFencesAux fuel rest
  | _ + 1, [] => []

def removeFences (l : List Char) : List Char :=
  removeFencesAux l.length l

/-- Scan to the closing backtick of an inline code span, returning the
span's inner text and the remainder; `none` when no backtick follows. -/
def takeToBacktick : List Char → Option (List Char × List Char)
  | [] => none
  | '`' :: rest => some ([], rest)
  | c :: rest =>
    match takeToBacktick rest with
    | some (inner, rem) => some (c :: inner, rem)
    | none => none

/-- Pass 2, ``inlineCodeRe = "`([^`]*)`"`` replaced by `"$1"`: a pair of
backticks is dropped, keeping the inner text. -/
def removeInlineAux : Nat → List Char → List Char
  | 0, l => l
  | fuel + 1, '`' :: rest =>
    match takeToBacktick rest with
    | some (inner, rem) => inner ++ removeInlineAux fuel rem
    | none => '`' :: rest
  | fuel + 1, c :: rest => c :: removeInlineAux fuel rest
  | _ + 1, [] => []

def removeInline (l : List Char) : List Char :=
  removeInlineAux l.length l

/-- Consume `#+`: the maximal nonempty run of `#`. -/
def dropHashes : List Char → List Char
  | '#' :: rest => dropHashes rest
  | l => l

/-- Consume the greedy `\s*`, tracking whether the last consumed
character was a newline (which re-enables the multi-line `^` anchor
for the continuation position). -/
def dropSpacesTrack : List Char → Bool → List Char × Bool
  | [], last => ([], last)
  | c :: rest, last =>
    if regexIsSpace c then dropSpacesTrack rest (c == '\n') else (c :: rest, last)

/-- Pass 3, `headingRe = "(?m)^#+\\s*"` replaced by the empty string.
The Boolean argument records whether the scan position is at a line
start (position 0 or just after a newline), where `(?m)^` matches. -/
def stripHeadingAux : Nat → Bool → List Char → List Char
  | 0, _, l => l
  | fuel + 1, atStart, c :: rest =>
    if atStart && c == '#' then
      let rest2 := dropHashes rest
      let p := dropSpacesTrack rest2 false
      stripHeadingAux fuel p.2 p.1
    else
      c :: stripHeadingAux fuel (c == '\n') rest
  | _ + 1, _, [] => []

def stripHeading (l : List Char) : List Char :=
  stripHeadingAux l.length true l

/-- Pass 4, `bulletRe = "(?m)^[>-]\\s*"` replaced by the empty string. -/
def stripBulletAux : Nat → Bool → List Char → List Char
  | 0, _, l => l
  | fuel + 1, atStart, c :: rest =>
    if atStart && (c == '>' || c == '-') then
      let p := dropSpacesTrack rest false
      stripBulletAux fuel p.2 p.1
    else
      c :: stripBulletAux fuel (c == '\n') rest
  | _ + 1, _, [] => []

def stripBullet (l : List Char) : List Char :=
  stripBulletAux l.length true l

/-- Find the first `)` and return the remainder after it. -/
def afterParen : List Char → Option (List Char)
  | [] => none
  | ')' :: rest => some rest
  | _ :: rest => afterParen rest

/-- Match the `\([^)]+\)` tail of `linkRe`: an opening parenthesis was
just consumed; require at least one non-`)` character before the
closing parenthesis. -/
def parseParen : List Char → Option (List Char)
  | [] => none
  | ')' :: _ => none
  | _ :: rest => afterParen rest

/-- Match the `\]\([^)]+\)` closer of `linkRe` at the current
position. -/
def tryLinkClose : List Char → Option (List Char)
  | ']' :: '(' :: rest => parseParen rest
  | _ => none

/-- Backtracking matcher for the continuation of `linkRe`'s group
`((?:[^\]]|\\])+)` after at least one unit has been consumed, in the
engine's preference order: extend with `[^\]]`, else extend with
`\\]`, else match the closer. Returns the rest of the group text and
the remainder after the whole match. -/
def linkRest : Nat → List Char → Option (List Char × List Char)
  | 0, _ => none
  | fuel + 1, l =>
    (match l with
     | c :: rest =>
       if c == ']' then none
       else (linkRest fuel rest).map (fun (p : List Char × List Char) => (c :: p.1, p.2))
     | [] => none).orElse (fun _ =>
    (match l with
     | '\\' :: ']' :: rest =>
       (linkRest fuel rest).map (fun (p : List Char × List Char) => ('\\' :: ']' :: p.1, p.2))
     | _ => none).orElse (fun _ =>
    (tryLinkClose l).map (fun r => ([], r))))

/-- Match `linkRe`'s group (one or more units) plus closer, starting
right after the `[`. -/
def linkGroup (fuel : Nat) (l : List Char) : Option (List Char × List Char) :=
  (match l with
   | c :: rest =>
     if c == ']' then none
     else (linkRest fuel rest).map (fun (p : List Char × List Char) => (c :: p.1, p.2))
   | [] => none).orElse (fun _ =>
  match l with
  | '\\' :: ']' :: rest =>
    (linkRest fuel rest).map (fun (p : List Char × List Char) => ('\\' :: ']' :: p.1, p.2))
  | _ => none)

/-- Pass 5, `linkRe = "\[((?:[^\]]|\\])+)\]\([^)]+\)"` replaced by
`"$1"`: a Markdown link is replaced by its link text. -/
def replaceLinksAux : Nat → List Char → List Char
  | 0, l => l
  | fuel + 1, '[' :: rest =>
    (match linkGroup rest.length rest with
     | some (g, rem) => g ++ replaceLinksAux fuel rem
     | none => '[' :: replaceLinksAux fuel rest)
  | fuel + 1, c :: rest => c :: replaceLinksAux fuel rest
  | _ + 1, [] => []

def replaceLinks (l : List Char) : List Char :=
  replaceLinksAux l.length l

/-- Consume a maximal run of newlines. -/
def dropNewlines : List Char → List Char
  | '\n' :: rest => dropNewlines rest
  | l => l

/-- Pass 6, `multiNewlineRe = "\n{3,}"` replaced by `"\n\n"`: a maximal
run of three or more newlines collapses to exactly two. -/
def collapseNLAux : Nat → List Char → List Char
  | 0, l => l
  | fuel + 1, '\n' :: '\n' :: '\n' :: rest =>
    '\n' :: '\n' :: collapseNLAux fuel (dropNewlines rest)
  | fuel + 1, c :: rest => c :: collapseNLAux fuel rest
  | _ + 1, [] => []

def collapseNL (l : List Char) : List Char :=
  collapseNLAux l.length l

/-- `stripMarkdown` (convert.go lines 61-69): the six passes in source
order followed by `strings.TrimSpace`. -/
def stripMarkdown (md : List Char) : List Char :=
  goTrim (collapseNL (replaceLinks (stripBullet (stripHeading (removeInline (removeFences md))))))

/-! ### callTTS (convert.go lines 232-275 and doTTSRequest, lines 287-309)

One `doTTSRequest` round trip is modelled by an oracle mapping the
attempt number (1-based) to its outcome: success with the audio bytes,
an `apiError` (HTTP status ≥ 400) carrying its `retryable` flag
(status 429 or ≥ 500), or a non-`apiError` failure (request building,
transport, or body-copy error). -/

inductive AttemptOutcome where
  | success (audio : List Char)
  | apiFail (retryable : Bool) (msg : String)
  | reqFail (msg : String)
  deriving Repr, DecidableEq

instance {ε α : Type} [DecidableEq ε] [DecidableEq α] : DecidableEq (Except ε α) := fun x y =>
  match x, y with
  | .error e1, .error e2 =>
    if h : e1 = e2 then .isTrue (by simp [h]) else .isFalse (by simp [h])
  | .ok a1, .ok a2 =>
    if h : a1 = a2 then .isTrue (by simp [h]) else .isFalse (by simp [h])
  | .error _, .ok _ => .isFalse (by simp)
  | .ok _, .error _ => .isFalse (by simp)

/-- Observable behaviour of one `callTTS` invocation: the number of
`doTTSRequest` attempts performed, the backoff sleeps (milliseconds, in
order), and the returned value (audio written to `w` on success, or the
surfaced error). -/
structure CallResult where
  attempts : Nat
  sleepsMs : List Nat
  result : Except String (List Char)
  deriving Repr, DecidableEq

/-- The retry loop `for attempt := 1; attempt <= 3; attempt++`
(convert.go lines 255-270), with `remaining` iterations left: before
attempt `n ≥ 2` the caller sleeps `n*n*300` ms; a retryable `apiError`
stores the error and continues; anything else returns at once; on
exhaustion the last error is surfaced (convert.go lines 271-274). -/
def callTTSGo (oracle : Nat → AttemptOutcome) :
    Nat → Nat → List Nat → Option String → CallResult
  | 0, attempt, sleeps, lastErr =>
    ⟨attempt - 1, sleeps, .error (lastErr.getD "unknown TTS error")⟩
  | rem + 1, attempt, sleeps, _lastErr =>
    let sleeps2 := if 1 < attempt then sleeps ++ [attempt * attempt * 300] else sleeps
    match oracle attempt with
    | .success audio => ⟨attempt, sleeps2, .ok audio⟩
    | .apiFail true msg => callTTSGo oracle rem (attempt + 1) sleeps2 (some msg)
    | .apiFail false msg => ⟨attempt, sleeps2, .error msg⟩
    | .reqFail msg => ⟨attempt, sleeps2, .error msg⟩

/-- `callTTS` (convert.go lines 232-275). The missing-credential guard
(line 233) returns before any attempt; JSON marshalling of the payload
is assumed to succeed (it is a map of strings and numbers). -/
def callTTS (apiKeyEmpty : Bool) (oracle : Nat → AttemptOutcome) : CallResult :=
  if apiKeyEmpty then ⟨0, [], .error "OPENAI_API_KEY is missing"⟩
  else callTTSGo oracle 3 1 [] none

/-! ### processFile (convert.go lines 183-230)

The file system and network are modelled by an environment of oracles;
the observable effects (destination content written, number of
synthesis invocations, whether the source was read and the directory
created) are returned explicitly. -/

inductive jobOutcome where
  | done
  | skipped
  | empty
  | failed
  deriving Repr, DecidableEq

/-- `jobResult` (convert.go lines 46-50). -/
structure jobResult where
  Status : jobOutcome
  Chunks : Nat
  Err : Option String
  deriving Repr, DecidableEq

/-- Environment for one `processFile` run: whether `os.Stat(DestPath)`
succeeds, the outcome of `os.ReadFile`, of `os.MkdirAll`, the per-chunk
per-attempt synthesis oracle, the outcome of `os.WriteFile`, and the
bytes observable at the destination if the write itself fails midway. -/
structure ProcEnv where
  destExists : Bool
  readResult : Except String (List Char)
  mkdirErr : Option String
  attemptOracle : Nat → Nat → AttemptOutcome
  apiKeyEmpty : Bool
  writeErr : Option String
  partialOnWriteFail : Option (List Char)

/-- Outcome of the chunk loop: the accumulated buffer on success, or
the first synthesis error together with its 0-based chunk index; both
carry the number of `callTTS` invocations made. -/
inductive LoopOut where
  | ok (buf : List Char) (calls : Nat)
  | fail (err : String) (calls : Nat) (atIdx : Nat)
  deriving Repr, DecidableEq

/-- The `for idx, chunk := range chunks` loop (convert.go lines
216-223): synthesize each chunk in order into the buffer, aborting at
the first failure. -/
def chunkLoop (env : ProcEnv) : Nat → List (List Char) → List Char → Nat → LoopOut
  | _, [], buf, calls => .ok buf calls
  | idx, _ :: rest, buf, calls =>
    match (callTTS env.apiKeyEmpty (env.attemptOracle idx)).result with
    | .ok audio => chunkLoop env (idx + 1) rest (buf ++ audio) (calls + 1)
    | .error e => .fail e (calls + 1) idx

/-- Observable effects of one `processFile` run. -/
structure ProcEffects where
  result : jobResult
  written : Option (List Char)
  ttsCalls : Nat
  didRead : Bool
  didMkdir : Bool
  deriving Repr, DecidableEq

/-- `processFile` (convert.go lines 183-230): idempotent skip, read,
normalize, chunk (limit hard-coded to 4000 at line 200), mkdir,
synthesize every chunk into a buffer, then a single `os.WriteFile` of
the concatenated bytes. The progress callback performs no observable
file or network effect and is not modelled. -/
def processFile (env : ProcEnv) (overwrite : Bool) : ProcEffects :=
  if !overwrite && env.destExists then
    ⟨⟨.skipped, 0, none⟩, none, 0, false, false⟩
  else
    match env.readResult with
    | .error e => ⟨⟨.failed, 0, some e⟩, none, 0, true, false⟩
    | .ok data =>
      let plain := stripMarkdown data
      if (goTrim plain).isEmpty then ⟨⟨.empty, 0, none⟩, none, 0, true, false⟩
      else
        let chunks := chunkText plain 4000
        if chunks.isEmpty then ⟨⟨.empty, 0, none⟩, none, 0, true, false⟩
        else
          match env.mkdirErr with
          | some e => ⟨⟨.failed, 0, some e⟩, none, 0, true, true⟩
          | none =>
            match chunkLoop env 0 chunks [] 0 with
            | .fail e calls _ => ⟨⟨.failed, chunks.length, some e⟩, none, calls, true, true⟩
            | .ok buf calls =>
              match env.writeErr with
              | some e =>
                ⟨⟨.failed, chunks.length, some e⟩, env.partialOnWriteFail, calls, true, true⟩
              | none => ⟨⟨.done, chunks.length, none⟩, some buf, calls, true, true⟩

/-! ### collectMarkdownFiles (convert.go lines 144-181)

File-system paths are modelled as lists of segments (the repository's
paths are already clean, so `filepath.Clean` is the identity).
`filepath.WalkDir` is modelled by the ordered list of entries it
presents to the callback; an entry carries the error `WalkDir` passes
for it (`nil` for a successfully visited entry). When the callback
returns a non-`nil` error, `WalkDir` stops and returns that error. -/

/-- `filepath.Match(pattern, name)` for patterns made of literal
characters, `?` and `*` (`*` does not cross a separator). Character
classes do not occur in this repository's patterns and are not
modelled. -/
def globMatchAux : Nat → List Char → List Char → Bool
  | 0, p, n => p.isEmpty && n.isEmpty
  | _ + 1, [], n => n.isEmpty
  | fuel + 1, '*' :: ps, n =>
    globMatchAux fuel ps n ||
      (match n with
       | [] => false
       | c :: ns => c != '/' && globMatchAux fuel ('*' :: ps) ns)
  | fuel + 1, '?' :: ps, n =>
    (match n with
     | [] => false
     | c :: ns => c != '/' && globMatchAux fuel ps ns)
  | fuel + 1, p :: ps, n =>
    (match n with
     | [] => false
     | c :: ns => p == c && globMatchAux fuel ps ns)

def globMatch (pattern name : List Char) : Bool :=
  globMatchAux (pattern.length + name.length + 1) pattern name

/-- `filepath.Rel(root, path)` on segment paths: strip the root prefix;
`none` models the error case where the path is not under the root. -/
def relPath : List String → List String → Option (List String)
  | [], p => some p
  | r :: rs, p :: ps => if r = p then relPath rs ps else none
  | _ :: _, [] => none

/-- `filepath.Ext` of a base name: the suffix starting at the final
dot, or empty when the name has no dot. -/
def fileExt (base : List Char) : List Char :=
  match base with
  | [] => []
  | c :: rest =>
    let e := fileExt rest
    if e.isEmpty then (if c == '.' then '.' :: rest else []) else e

/-- `strings.TrimSuffix(rel, ext) + "." + responseFormat` applied to
the base name (the extension of a relative path lives entirely in its
last segment). -/
def replaceExt (base : List Char) (format : List Char) : List Char :=
  (base.take (base.length - (fileExt base).length)) ++ '.' :: format

/-- Rename the last segment of a relative path by replacing its
extension with the configured format. -/
def destRelPath (rel : List String) (format : List Char) : List String :=
  match rel with
  | [] => []
  | [b] => [String.mk (replaceExt b.toList format)]
  | s :: rest => s :: destRelPath rest format

/-- `fileJob` (convert.go lines 31-35). -/
structure fileJob where
  AbsPath : List String
  RelPath : List String
  DestPath : List String
  deriving Repr, DecidableEq

/-- One entry presented by `filepath.WalkDir`: the visited path, its
base name, whether it is a directory, and the traversal error passed
to the callback (`none` when the visit succeeded). -/
structure WalkEntry where
  path : List String
  name : String
  isDir : Bool
  err : Option String
  deriving Repr, DecidableEq

/-- The walk callback folded over the entries (convert.go lines
152-179): a traversal error is returned to `WalkDir`, which stops and
surfaces it; directories are skipped; a matching file is appended to
`jobs` with its mirrored destination path. -/
def collectGo (root outDir : List String) (pattern format : List Char) :
    List WalkEntry → List fileJob → List fileJob × Option String
  | [], jobs => (jobs, none)
  | e :: rest, jobs =>
    match e.err with
    | some er => (jobs, some er)
    | none =>
      if e.isDir then collectGo root outDir pattern format rest jobs
      else if globMatch pattern e.name.toList then
        match relPath root e.path with
        | none => (jobs, some "Rel: cannot make relative")
        | some rel =>
          collectGo root outDir pattern format rest
            (jobs ++ [⟨e.path, rel, outDir ++ destRelPath rel format⟩])
      else collectGo root outDir pattern format rest jobs

/-- `collectMarkdownFiles` (convert.go lines 144-181): default the
pattern to `*.md`, then fold the walk. Returns the accumulated job
slice together with the error returned by `filepath.WalkDir`. -/
def collectMarkdownFiles (root outDir : List String) (pattern format : List Char)
    (entries : List WalkEntry) : List fileJob × Option String :=
  let pattern := if pattern.isEmpty then "*.md".toList else pattern
  collectGo root outDir pattern format entries []

/-! ## Helper lemmas -/

theorem dLS_length_le (l : List Char) : (dropLeadingSpace l).length ≤ l.length := by
  induction l with
  | nil => simp [dropLeadingSpace]
  | cons c rest ih =>
    by_cases h : goIsSpace c
    · simp only [dropLeadingSpace, if_pos h]
      exact Nat.le_trans ih (by simp)
    · simp [dropLeadingSpace, if_neg h]

theorem goTrim_length_le (l : List Char) : (goTrim l).length ≤ l.length := by
  unfold goTrim
  calc (dropLeadingSpace ((dropLeadingSpace l).reverse)).reverse.length
      = (dropLeadingSpace ((dropLeadingSpace l).reverse)).length := by simp
    _ ≤ (dropLeadingSpace l).reverse.length := dLS_length_le _
    _ = (dropLeadingSpace l).length := by simp
    _ ≤ l.length := dLS_length_le l

theorem dLS_head_not (l : List Char) (c : Char) (rest : List Char)
    (h : dropLeadingSpace l = c :: rest) : goIsSpace c = false := by
  induction l with
  | nil => simp [dropLeadingSpace] at h
  | cons a as ih =>
    by_cases ha : goIsSpace a
    · exact ih (by simpa [dropLeadingSpace, if_pos ha] using h)
    · simp only [dropLeadingSpace, if_neg ha] at h
      cases h
      exact Bool.not_eq_true _ ▸ (by simpa using ha)

theorem dLS_of_head_not (l : List Char)
    (h : ∀ c rest, l = c :: rest → goIsSpace c = false) : dropLeadingSpace l = l := by
  cases l with
  | nil => rfl
  | cons c rest => simp [dropLeadingSpace, h c rest rfl]

theorem dLS_getLast (l : List Char) (h : dropLeadingSpace l ≠ []) :
    (dropLeadingSpace l).getLast? = l.getLast? := by
  induction l with
  | nil => simp [dropLeadingSpace] at h
  | cons c rest ih =>
    by_cases hc : goIsSpace c
    · simp only [dropLeadingSpace, if_pos hc] at h ⊢
      have hrest : rest ≠ [] := by
        intro he
        exact h (by simp [he, dropLeadingSpace])
      rw [ih h]
      cases rest with
      | nil => exact absurd rfl hrest
      | cons d ds => rw [List.getLast?_cons_cons]
    · simp [dropLeadingSpace, if_neg hc]

theorem goTrim_idem (l : List Char) : goTrim (goTrim l) = goTrim l := by
  rcases he : goTrim l with _ | ⟨c, rest⟩
  · rfl
  · have hbne : dropLeadingSpace ((dropLeadingSpace l).reverse) ≠ [] := by
      intro hb
      rw [goTrim, hb] at he
      simp at he
    have hhead : goIsSpace c = false := by
      have h1 : (goTrim l).head? = some c := by rw [he]; rfl
      have h2 : (goTrim l).head? = (dropLeadingSpace l).head? := by
        rw [goTrim, List.head?_reverse, dLS_getLast _ hbne, List.getLast?_reverse]
      rw [h2] at h1
      rcases ha : dropLeadingSpace l with _ | ⟨a, as⟩
      · rw [ha] at h1
        simp at h1
      · have hca : c = a := by
          rw [ha] at h1
          simpa using h1.symm
        rw [hca]
        exact dLS_head_not l a as ha
    have hfst : dropLeadingSpace (goTrim l) = goTrim l := by
      apply dLS_of_head_not
      intro d ds hds
      rw [he] at hds
      cases hds
      exact hhead
    have hb : ∀ d ds, dropLeadingSpace ((dropLeadingSpace l).reverse) = d :: ds →
        goIsSpace d = false := fun d ds hd => dLS_head_not _ d ds hd
    rw [← he]
    show (dropLeadingSpace ((dropLeadingSpace (goTrim l)).reverse)).reverse = goTrim l
    rw [hfst]
    have hrev : (goTrim l).reverse = dropLeadingSpace ((dropLeadingSpace l).reverse) := by
      rw [goTrim, List.reverse_reverse]
    rw [hrev, dLS_of_head_not _ hb]
    rw [goTrim]

theorem goJoin_snoc (sep : List Char) (xs : List (List Char)) (x : List Char) (h : xs ≠ []) :
    goJoin sep (xs ++ [x]) = goJoin sep xs ++ sep ++ x := by
  induction xs with
  | nil => exact absurd rfl h
  | cons a as ih =>
    cases as with
    | nil => simp [goJoin]
    | cons b bs =>
      have : goJoin sep ((a :: b :: bs) ++ [x]) = a ++ sep ++ goJoin sep ((b :: bs) ++ [x]) := rfl
      rw [this, ih (by simp)]
      simp [goJoin]

theorem dLS_cons_not (c : Char) (t : List Char) (h : goIsSpace c = false) :
    dropLeadingSpace (c :: t) = c :: t := by
  simp [dropLeadingSpace, h]

theorem goTrim_replicate (n : Nat) (c : Char) (h : goIsSpace c = false) :
    goTrim (List.replicate n c) = List.replicate n c := by
  cases n with
  | zero => rfl
  | succ m =>
    unfold goTrim
    rw [List.replicate_succ, dLS_cons_not c _ h, ← List.replicate_succ, List.reverse_replicate]
    rw [List.replicate_succ, dLS_cons_not c _ h, ← List.replicate_succ, List.reverse_replicate]

theorem splitNNAux_cons_ne (fuel : Nat) (acc : List Char) (c : Char) (rest : List Char)
    (hc : c ≠ '\n') :
    splitNNAux (fuel + 1) acc (c :: rest) = splitNNAux fuel (c :: acc) rest := by
  conv_lhs => unfold splitNNAux
  split <;> simp_all

theorem removeFencesAux_cons_ne (fuel : Nat) (c : Char) (rest : List Char)
    (hc : c ≠ '`') :
    removeFencesAux (fuel + 1) (c :: rest) = c :: removeFencesAux fuel rest := by
  conv_lhs => unfold removeFencesAux
  split <;> simp_all

theorem removeInlineAux_cons_ne (fuel : Nat) (c : Char) (rest : List Char)
    (hc : c ≠ '`') :
    removeInlineAux (fuel + 1) (c :: rest) = c :: removeInlineAux fuel rest := by
  conv_lhs => unfold removeInlineAux
  split <;> simp_all

theorem replaceLinksAux_cons_ne (fuel : Nat) (c : Char) (rest : List Char)
    (hc : c ≠ '[') :
    replaceLinksAux (fuel + 1) (c :: rest) = c :: replaceLinksAux fuel rest := by
  conv_lhs => unfold replaceLinksAux
  split <;> simp_all

theorem collapseNLAux_cons_ne (fuel : Nat) (c : Char) (rest : List Char)
    (hc : c ≠ '\n') :
    collapseNLAux (fuel + 1) (c :: rest) = c :: collapseNLAux fuel rest := by
  conv_lhs => unfold collapseNLAux
  split <;> simp_all

theorem removeFencesAux_id (fuel : Nat) : ∀ l : List Char, '`' ∉ l →
    removeFencesAux fuel l = l := by
  induction fuel with
  | zero => intro l _; rfl
  | succ n ih =>
    intro l h
    cases l with
    | nil => rfl
    | cons c rest =>
      have hc : c ≠ '`' := fun e => h (by rw [e]; exact List.mem_cons_self _ _)
      rw [removeFencesAux_cons_ne n c rest hc,
        ih rest (fun hm => h (List.mem_cons_of_mem _ hm))]

theorem removeInlineAux_id (fuel : Nat) : ∀ l : List Char, '`' ∉ l →
    removeInlineAux fuel l = l := by
  induction fuel with
  | zero => intro l _; rfl
  | succ n ih =>
    intro l h
    cases l with
    | nil => rfl
    | cons c rest =>
      have hc : c ≠ '`' := fun e => h (by rw [e]; exact List.mem_cons_self _ _)
      rw [removeInlineAux_cons_ne n c rest hc,
        ih rest (fun hm => h (List.mem_cons_of_mem _ hm))]

theorem replaceLinksAux_id (fuel : Nat) : ∀ l : List Char, '[' ∉ l →
    replaceLinksAux fuel l = l := by
  induction fuel with
  | zero => intro l _; rfl
  | succ n ih =>
    intro l h
    cases l with
    | nil => rfl
    | cons c rest =>
      have hc : c ≠ '[' := fun e => h (by rw [e]; exact List.mem_cons_self _ _)
      rw [replaceLinksAux_cons_ne n c rest hc,
        ih rest (fun hm => h (List.mem_cons_of_mem _ hm))]

theorem stripHeadingAux_id (fuel : Nat) : ∀ (b : Bool) (l : List Char),
    '#' ∉ l → stripHeadingAux fuel b l = l := by
  induction fuel with
  | zero => intro b l _; rfl
  | succ n ih =>
    intro b l h
    cases l with
    | nil => rfl
    | cons c rest =>
      have hc : (c == '#') = false := by
        have : c ≠ '#' := fun e => h (by rw [e]; exact List.mem_cons_self _ _)
        simpa using this
      simp only [stripHeadingAux, hc, Bool.and_false, Bool.false_eq_true, if_false]
      rw [ih _ rest (fun hm => h (List.mem_cons_of_mem _ hm))]

theorem stripBulletAux_id (fuel : Nat) : ∀ (b : Bool) (l : List Char),
    '>' ∉ l → '-' ∉ l → stripBulletAux fuel b l = l := by
  induction fuel with
  | zero => intro b l _ _; rfl
  | succ n ih =>
    intro b l h1 h2
    cases l with
    | nil => rfl
    | cons c rest =>
      have hg : (c == '>') = false := by
        have : c ≠ '>' := fun e => h1 (by rw [e]; exact List.mem_cons_self _ _)
        simpa using this
      have hd : (c == '-') = false := by
        have : c ≠ '-' := fun e => h2 (by rw [e]; exact List.mem_cons_self _ _)
        simpa using this
      simp only [stripBulletAux, hg, hd, Bool.or_self, Bool.and_false, Bool.false_eq_true,
        if_false]
      rw [ih _ rest (fun hm => h1 (List.mem_cons_of_mem _ hm))
        (fun hm => h2 (List.mem_cons_of_mem _ hm))]

theorem collapseNLAux_id_free (fuel : Nat) : ∀ l : List Char, '\n' ∉ l →
    collapseNLAux fuel l = l := by
  induction fuel with
  | zero => intro l _; rfl
  | succ n ih =>
    intro l h
    cases l with
    | nil => rfl
    | cons c rest =>
      have hc : c ≠ '\n' := fun e => h (by rw [e]; exact List.mem_cons_self _ _)
      rw [collapseNLAux_cons_ne n c rest hc,
        ih rest (fun hm => h (List.mem_cons_of_mem _ hm))]

theorem collapseNLAux_append_free : ∀ (xs : List Char) (fuel : Nat) (l : List Char),
    '\n' ∉ xs → collapseNLAux (xs.length + fuel) (xs ++ l) = xs ++ collapseNLAux fuel l := by
  intro xs
  induction xs with
  | nil => intro fuel l _; simp
  | cons x xs ih =>
    intro fuel l h
    have hx : x ≠ '\n' := fun e => h (by rw [e]; exact List.mem_cons_self _ _)
    have harith : (x :: xs).length + fuel = (xs.length + fuel) + 1 := by
      simp [List.length_cons]; omega
    rw [harith, List.cons_append, collapseNLAux_cons_ne _ x _ hx,
      ih fuel l (fun hm => h (List.mem_cons_of_mem _ hm))]
    simp

theorem collapseNLAux_two_nl (fuel : Nat) (t : List Char) :
    collapseNLAux (fuel + 2) ('\n' :: '\n' :: 'b' :: t) =
      '\n' :: '\n' :: collapseNLAux fuel ('b' :: t) := rfl

theorem splitNNAux_free : ∀ (xs : List Char) (fuel : Nat) (acc : List Char),
    '\n' ∉ xs → splitNNAux fuel acc xs = [acc.reverse ++ xs] := by
  intro xs
  induction xs with
  | nil =>
    intro fuel acc _
    cases fuel <;> simp [splitNNAux]
  | cons x xs ih =>
    intro fuel acc h
    have hx : x ≠ '\n' := fun e => h (by rw [e]; exact List.mem_cons_self _ _)
    cases fuel with
    | zero => rfl
    | succ n =>
      rw [splitNNAux_cons_ne n acc x xs hx, ih n (x :: acc)
        (fun hm => h (List.mem_cons_of_mem _ hm))]
      simp

theorem splitNNAux_delim : ∀ (xs : List Char) (acc ys : List Char) (fuel : Nat),
    '\n' ∉ xs →
    splitNNAux (xs.length + (fuel + 1)) acc (xs ++ '\n' :: '\n' :: ys) =
      (acc.reverse ++ xs) :: splitNNAux fuel [] ys := by
  intro xs
  induction xs with
  | nil =>
    intro acc ys fuel _
    simp [splitNNAux]
  | cons x xs ih =>
    intro acc ys fuel h
    have hx : x ≠ '\n' := fun e => h (by rw [e]; exact List.mem_cons_self _ _)
    have harith : (x :: xs).length + (fuel + 1) = (xs.length + (fuel + 1)) + 1 := by
      simp [List.length_cons]; omega
    rw [harith, List.cons_append, splitNNAux_cons_ne _ acc x _ hx,
      ih (x :: acc) ys fuel (fun hm => h (List.mem_cons_of_mem _ hm))]
    simp

/-! ## Claim theorems -/

/-- C7: `chunkText` treats any `maxChars ≤ 0` exactly as the default
limit 4000, so `chunkText text m = chunkText text 4000` for every
`m ≤ 0` (convert.go lines 72-74). -/
theorem chunkText_nonpositive_uses_default (text : List Char) (m : Int) (h : m ≤ 0) :
    chunkText text m = chunkText text 4000 := by
  unfold chunkText effMax
  rw [if_pos h, if_neg (by norm_num)]
  rfl

/-- Witness for C7 at `m = -5`. -/
theorem chunkText_nonpositive_uses_default_witness :
    (-5 : Int) ≤ 0 ∧ chunkText "Hi.".toList (-5) = chunkText "Hi.".toList 4000 :=
  ⟨by decide, chunkText_nonpositive_uses_default "Hi.".toList (-5) (by decide)⟩

theorem paraStep_overlong_eq (m : Nat) (st : ChunkState) (p : List Char)
    (h1 : (goTrim p).isEmpty = false) (h2 : m < (goTrim p).length) :
    paraStep m st p =
      ⟨st.chunks ++ sentenceChunks m (goTrim p), st.current, st.currentLen⟩ := by
  cases st
  simp only [paraStep, h1, Bool.false_eq_true, if_false, if_pos (Nat.lt_iff_add_one_le.mp h2)]
  simp [h2]

/-- C1: `chunkText` is a total Lean function by construction, and a
paragraph longer than `maxChars` is handled entirely by the sentence
splitter: its sub-chunks are appended directly to the output while the
outer paragraph buffer (`current`, `currentLen`) is left untouched
(convert.go lines 97-122). -/
theorem overlong_paragraph_bypasses_buffer (m : Nat) (st : ChunkState) (p : List Char)
    (h1 : (goTrim p).isEmpty = false) (h2 : m < (goTrim p).length) :
    paraStep m st p =
      ⟨st.chunks ++ sentenceChunks m (goTrim p), st.current, st.currentLen⟩ :=
  paraStep_overlong_eq m st p h1 h2

/-- Witness for C1: a 27-character paragraph with limit 3. -/
theorem overlong_paragraph_bypasses_buffer_witness :
    ((goTrim "Aaaa bbbb. Cccc dddd. Eeee.".toList).isEmpty = false) ∧
      3 < (goTrim "Aaaa bbbb. Cccc dddd. Eeee.".toList).length ∧
      paraStep 3 ⟨[['x']], [['y']], 1⟩ "Aaaa bbbb. Cccc dddd. Eeee.".toList =
        ⟨[['x']] ++ sentenceChunks 3 (goTrim "Aaaa bbbb. Cccc dddd. Eeee.".toList), [['y']], 1⟩ :=
  ⟨by decide, by decide,
    overlong_paragraph_bypasses_buffer 3 ⟨[['x']], [['y']], 1⟩
      "Aaaa bbbb. Cccc dddd. Eeee.".toList (by decide) (by decide)⟩

/-- C6: with overwrite disabled and an existing destination,
`processFile` returns `Skipped` with a chunk count of 0 and performs no
read, no directory creation, no write and no synthesis call
(convert.go lines 184-189). -/
theorem skip_when_destination_exists (env : ProcEnv)
    (h : env.destExists = true) :
    processFile env false = ⟨⟨.skipped, 0, none⟩, none, 0, false, false⟩ := by
  simp [processFile, h]

/-- Witness for C6 on a concrete environment. -/
theorem skip_when_destination_exists_witness :
    (ProcEnv.destExists ⟨true, .ok "x".toList, none, fun _ _ => .success [], false, none, none⟩
        = true) ∧
      processFile ⟨true, .ok "x".toList, none, fun _ _ => .success [], false, none, none⟩ false =
        ⟨⟨.skipped, 0, none⟩, none, 0, false, false⟩ :=
  ⟨rfl, skip_when_destination_exists _ rfl⟩

/-- C3: the synthesis retry policy (convert.go lines 255-275). For
every attempt oracle and a non-empty credential: (a) at most 3 attempts
are made; (b) a first failure that is non-retryable (an `apiError` with
`retryable = false`, or any non-`apiError` failure) means exactly one
attempt, no backoff sleep, and that error surfaced; (c) a non-retryable
failure at attempt 2 aborts immediately after 2 attempts with no third
attempt; (d) when all three attempts fail retryably, three attempts are
made, the sleeps before attempts 2 and 3 are 2²·300 = 1200 ms and
3²·300 = 2700 ms (strictly increasing), and the last error is
surfaced. -/
theorem callTTSGo_attempts_le (oracle : Nat → AttemptOutcome) :
    ∀ rem attempt sleeps lastErr,
      (callTTSGo oracle rem attempt sleeps lastErr).attempts ≤ attempt - 1 + rem := by
  intro rem
  induction rem with
  | zero =>
    intro attempt sleeps lastErr
    simp [callTTSGo]
  | succ n ih =>
    intro attempt sleeps lastErr
    unfold callTTSGo
    cases h : oracle attempt with
    | success a => simp; omega
    | apiFail r m =>
      cases r with
      | true =>
        simp only []
        exact Nat.le_trans (ih (attempt + 1) _ _) (by omega)
      | false => simp; omega
    | reqFail m => simp; omega

theorem callTTS_retry_policy (oracle : Nat → AttemptOutcome) :
    (callTTS false oracle).attempts ≤ 3 ∧
    (∀ m, (oracle 1 = .apiFail false m ∨ oracle 1 = .reqFail m) →
      callTTS false oracle = ⟨1, [], .error m⟩) ∧
    (∀ m1 m2, oracle 1 = .apiFail true m1 →
      (oracle 2 = .apiFail false m2 ∨ oracle 2 = .reqFail m2) →
      callTTS false oracle = ⟨2, [1200], .error m2⟩) ∧
    (∀ m1 m2 m3, oracle 1 = .apiFail true m1 → oracle 2 = .apiFail true m2 →
      oracle 3 = .apiFail true m3 →
      callTTS false oracle = ⟨3, [1200, 2700], .error m3⟩ ∧ (1200 : Nat) < 2700) := by
  refine ⟨?_, ?_, ?_, ?_⟩
  · unfold callTTS
    simp only [Bool.false_eq_true, if_false]
    exact Nat.le_trans (callTTSGo_attempts_le oracle 3 1 [] none) (by norm_num)
  · intro m h
    rcases h with h | h <;> simp [callTTS, callTTSGo, h]
  · intro m1 m2 h1 h
    rcases h with h | h <;>
      · unfold callTTS
        simp only [Bool.false_eq_true, if_false]
        unfold callTTSGo
        rw [h1]
        unfold callTTSGo
        rw [h]
        norm_num
  · intro m1 m2 m3 h1 h2 h3
    refine ⟨?_, by norm_num⟩
    unfold callTTS
    simp only [Bool.false_eq_true, if_false]
    unfold callTTSGo
    rw [h1]
    unfold callTTSGo
    rw [h2]
    unfold callTTSGo
    rw [h3]
    unfold callTTSGo
    norm_num

/-- Witness for C3: a concrete always-retryable oracle exhausts the 3
attempts with sleeps 1200 and 2700 ms, and a concrete non-retryable
oracle stops after a single attempt. -/
theorem callTTS_retry_policy_witness :
    callTTS false (fun _ => .apiFail true "rate limited") =
        ⟨3, [1200, 2700], .error "rate limited"⟩ ∧
      callTTS false (fun _ => .reqFail "bad request") = ⟨1, [], .error "bad request"⟩ ∧
      (callTTS false (fun _ => AttemptOutcome.success "A".toList)).attempts ≤ 3 :=
  ⟨((callTTS_retry_policy (fun _ => .apiFail true "rate limited")).2.2.2
      "rate limited" "rate limited" "rate limited" rfl rfl rfl).1,
    (callTTS_retry_policy (fun _ => .reqFail "bad request")).2.1
      "bad request" (Or.inr rfl),
    (callTTS_retry_policy (fun _ => AttemptOutcome.success "A".toList)).1⟩

/-- C2: whenever `processFile` fails for one of the reasons the claim
enumerates — source read failure, directory-creation failure, or a
chunk synthesis failure (equivalently: any failure while the final
`os.WriteFile` itself would succeed) — nothing at all is written to the
destination: the chunk outputs are accumulated in an in-memory buffer
and the only write happens after every chunk has succeeded
(convert.go lines 205-227). -/
theorem failed_job_writes_nothing (env : ProcEnv) (ow : Bool)
    (hw : env.writeErr = none)
    (hf : (processFile env ow).result.Status = .failed) :
    (processFile env ow).written = none := by
  rcases hskip : (!ow && env.destExists) with _ | _
  · rcases hr : env.readResult with e | data
    · have hv : processFile env ow = ⟨⟨.failed, 0, some e⟩, none, 0, true, false⟩ := by
        simp [processFile, hskip, hr]
      rw [hv]
    · rcases ht : (goTrim (stripMarkdown data)).isEmpty with _ | _
      · rcases hc : (chunkText (stripMarkdown data) 4000).isEmpty with _ | _
        · rcases hm : env.mkdirErr with _ | e
          · rcases hl : chunkLoop env 0 (chunkText (stripMarkdown data) 4000) [] 0 with
              ⟨buf, calls⟩ | ⟨e, calls, i⟩
            · have hv : processFile env ow =
                  ⟨⟨.done, (chunkText (stripMarkdown data) 4000).length, none⟩,
                    some buf, calls, true, true⟩ := by
                simp [processFile, hskip, hr, ht, hc, hm, hl, hw]
              rw [hv] at hf
              simp at hf
            · have hv : processFile env ow =
                  ⟨⟨.failed, (chunkText (stripMarkdown data) 4000).length, some e⟩,
                    none, calls, true, true⟩ := by
                simp [processFile, hskip, hr, ht, hc, hm, hl]
              rw [hv]
          · have hv : processFile env ow = ⟨⟨.failed, 0, some e⟩, none, 0, true, true⟩ := by
              simp [processFile, hskip, hr, ht, hc, hm]
            rw [hv]
        · have hv : processFile env ow = ⟨⟨.empty, 0, none⟩, none, 0, true, false⟩ := by
            simp [processFile, hskip, hr, ht, hc]
          rw [hv]
      · have hv : processFile env ow = ⟨⟨.empty, 0, none⟩, none, 0, true, false⟩ := by
          simp [processFile, hskip, hr, ht]
        rw [hv]
  · have hv : processFile env ow = ⟨⟨.skipped, 0, none⟩, none, 0, false, false⟩ := by
      simp [processFile, hskip]
    rw [hv] at hf
    simp at hf

/-- Witness for C2: a read failure yields `Failed` and an untouched
destination. -/
theorem failed_job_writes_nothing_witness :
    (ProcEnv.writeErr ⟨false, .error "io error", none, fun _ _ => .success [], false, none, none⟩
        = none) ∧
      (processFile ⟨false, .error "io error", none, fun _ _ => .success [], false, none, none⟩
          true).result.Status = .failed ∧
      (processFile ⟨false, .error "io error", none, fun _ _ => .success [], false, none, none⟩
          true).written = none :=
  ⟨rfl, rfl,
    failed_job_writes_nothing
      ⟨false, .error "io error", none, fun _ _ => .success [], false, none, none⟩ true rfl rfl⟩

/-! ## C5: chunk count carried by a failed job -/

/-- A Markdown source of 4005 bytes: a 2003-character paragraph, a
blank line, then a 2000-character paragraph. `chunkText` at the
hard-coded limit 4000 produces exactly two chunks for it. -/
def bigParaA : List Char := List.replicate 2003 'a'

def bigParaB : List Char := List.replicate 2000 'b'

def bigData : List Char := bigParaA ++ '\n' :: '\n' :: bigParaB

/-- Environment whose destination does not exist, whose source reads
`bigData`, and whose synthesis client fails non-retryably on every
attempt. -/
def bigEnv : ProcEnv :=
  ⟨false, .ok bigData, none, fun _ _ => .apiFail false "boom", false, none, none⟩

theorem bigParaA_no_nl : '\n' ∉ bigParaA := by
  intro h
  exact absurd (List.eq_of_mem_replicate h) (by decide)

theorem bigParaB_no_nl : '\n' ∉ bigParaB := by
  intro h
  exact absurd (List.eq_of_mem_replicate h) (by decide)

theorem bigData_mem (c : Char) (h : c ∈ bigData) : c = 'a' ∨ c = 'b' ∨ c = '\n' := by
  rcases List.mem_append.mp h with h1 | h1
  · exact Or.inl (List.eq_of_mem_replicate h1)
  · rcases List.mem_cons.mp h1 with h2 | h2
    · exact Or.inr (Or.inr h2)
    · rcases List.mem_cons.mp h2 with h3 | h3
      · exact Or.inr (Or.inr h3)
      · exact Or.inr (Or.inl (List.eq_of_mem_replicate h3))

theorem bigParaA_len : bigParaA.length = 2003 := by
  rw [bigParaA, List.length_replicate]

theorem bigParaB_len : bigParaB.length = 2000 := by
  rw [bigParaB, List.length_replicate]

theorem bigData_length : bigData.length = 4005 := by
  rw [bigData, List.length_append, List.length_cons, List.length_cons, bigParaA_len,
    bigParaB_len]

theorem bigParaA_cons : bigParaA = 'a' :: List.replicate 2002 'a' := by
  rw [bigParaA, show (2003 : Nat) = 2002 + 1 from rfl, List.replicate_succ]

theorem bigParaB_cons : bigParaB = 'b' :: List.replicate 1999 'b' := by
  rw [bigParaB, show (2000 : Nat) = 1999 + 1 from rfl, List.replicate_succ]

theorem goTrim_bigParaA : goTrim bigParaA = bigParaA :=
  goTrim_replicate 2003 'a' (by decide)

theorem goTrim_bigParaB : goTrim bigParaB = bigParaB :=
  goTrim_replicate 2000 'b' (by decide)

theorem bigData_head : bigData = 'a' :: (List.replicate 2002 'a' ++ '\n' :: '\n' :: bigParaB) := by
  rw [bigData, bigParaA_cons, List.cons_append]

theorem bigData_rev :
    bigData.reverse =
      'b' :: ((List.replicate 1999 'b' ++ ['\n', '\n']) ++ List.replicate 2003 'a') := by
  rw [bigData, List.reverse_append]
  rw [show ('\n' :: '\n' :: bigParaB).reverse = bigParaB.reverse ++ ['\n', '\n'] by simp]
  rw [bigParaB, List.reverse_replicate, bigParaA, List.reverse_replicate,
    show (2000 : Nat) = 1999 + 1 from rfl, List.replicate_succ, List.cons_append]
  simp only [List.cons_append, List.append_assoc]

theorem goTrim_bigData : goTrim bigData = bigData := by
  unfold goTrim
  rw [show dropLeadingSpace bigData = bigData by
      rw [bigData_head]; exact dLS_cons_not _ _ (by decide)]
  rw [bigData_rev, dLS_cons_not _ _ (by decide), ← bigData_rev, List.reverse_reverse]

theorem bigData_not_empty : bigData.isEmpty = false := by
  rw [bigData_head]
  rfl

theorem stripMarkdown_bigData : stripMarkdown bigData = bigData := by
  have hbt : '`' ∉ bigData := fun h => by
    rcases bigData_mem _ h with h1 | h1 | h1 <;> exact absurd h1 (by decide)
  have hhash : '#' ∉ bigData := fun h => by
    rcases bigData_mem _ h with h1 | h1 | h1 <;> exact absurd h1 (by decide)
  have hgt : '>' ∉ bigData := fun h => by
    rcases bigData_mem _ h with h1 | h1 | h1 <;> exact absurd h1 (by decide)
  have hdash : '-' ∉ bigData := fun h => by
    rcases bigData_mem _ h with h1 | h1 | h1 <;> exact absurd h1 (by decide)
  have hbr : '[' ∉ bigData := fun h => by
    rcases bigData_mem _ h with h1 | h1 | h1 <;> exact absurd h1 (by decide)
  have hcnl : collapseNL bigData = bigData := by
    unfold collapseNL
    rw [bigData_length, show (4005 : Nat) = bigParaA.length + 2002 by rw [bigParaA_len]]
    rw [show bigData = bigParaA ++ ('\n' :: '\n' :: bigParaB) from rfl,
      collapseNLAux_append_free bigParaA 2002 _ bigParaA_no_nl]
    rw [bigParaB_cons, show (2002 : Nat) = 2000 + 2 from rfl, collapseNLAux_two_nl]
    rw [collapseNLAux_id_free 2000 _ (by
      intro h
      rcases List.mem_cons.mp h with h1 | h1
      · exact absurd h1 (by decide)
      · exact absurd (List.eq_of_mem_replicate h1) (by decide))]
  unfold stripMarkdown
  rw [removeFences, removeFencesAux_id _ _ hbt, removeInline, removeInlineAux_id _ _ hbt,
    stripHeading, stripHeadingAux_id _ _ _ hhash, stripBullet,
    stripBulletAux_id _ _ _ hgt hdash, replaceLinks, replaceLinksAux_id _ _ hbr, hcnl,
    goTrim_bigData]

theorem paraStep_fits (m : Nat) (st : ChunkState) (p : List Char)
    (h1 : (goTrim p).isEmpty = false) (h2 : ¬(goTrim p).length > m)
    (h3 : st.currentLen + (goTrim p).length + 2 ≤ m) :
    paraStep m st p =
      ⟨st.chunks, st.current ++ [goTrim p], st.currentLen + (goTrim p).length + 2⟩ := by
  cases st
  simp only [paraStep, h1, Bool.false_eq_true, if_false, if_neg h2, if_pos h3]

theorem paraStep_newbuf (m : Nat) (st : ChunkState) (p : List Char)
    (h1 : (goTrim p).isEmpty = false) (h2 : ¬(goTrim p).length > m)
    (h3 : ¬st.currentLen + (goTrim p).length + 2 ≤ m) :
    paraStep m st p = ⟨(chunkFlush st).chunks, [goTrim p], (goTrim p).length⟩ := by
  cases st
  simp only [paraStep, h1, Bool.false_eq_true, if_false, if_neg h2, if_neg h3]

theorem chunkFlush_cons (chunks : List (List Char)) (x : List Char)
    (xs : List (List Char)) (n : Nat) :
    chunkFlush ⟨chunks, x :: xs, n⟩ =
      ⟨chunks ++ [goTrim (goJoin ['\n', '\n'] (x :: xs))], [], 0⟩ := by
  simp [chunkFlush]

theorem goJoin_singleton (sep x : List Char) : goJoin sep [x] = x := rfl

theorem chunkText_bigData : chunkText bigData 4000 = [bigParaA, bigParaB] := by
  have hsplit : splitNN bigData = [bigParaA, bigParaB] := by
    unfold splitNN
    rw [bigData_length, show (4005 : Nat) = bigParaA.length + (2001 + 1) by rw [bigParaA_len]]
    rw [show bigData = bigParaA ++ ('\n' :: '\n' :: bigParaB) from rfl,
      splitNNAux_delim bigParaA [] bigParaB 2001 bigParaA_no_nl,
      splitNNAux_free bigParaB 2001 [] bigParaB_no_nl]
    rw [List.reverse_nil, List.nil_append, List.nil_append]
  have hA : bigParaA.isEmpty = false := by rw [bigParaA_cons]; rfl
  have hB : bigParaB.isEmpty = false := by rw [bigParaB_cons]; rfl
  have hgA : (goTrim bigParaA).isEmpty = false := by rw [goTrim_bigParaA]; exact hA
  have hgB : (goTrim bigParaB).isEmpty = false := by rw [goTrim_bigParaB]; exact hB
  have hstep1 : paraStep 4000 ⟨[], [], 0⟩ bigParaA = ⟨[], [bigParaA], 2005⟩ := by
    rw [paraStep_fits 4000 ⟨[], [], 0⟩ bigParaA hgA
      (by rw [goTrim_bigParaA, bigParaA_len]; norm_num)
      (by rw [goTrim_bigParaA, bigParaA_len]; norm_num)]
    rw [goTrim_bigParaA, bigParaA_len]
    rfl
  have hstep2 : paraStep 4000 ⟨[], [bigParaA], 2005⟩ bigParaB =
      ⟨[bigParaA], [bigParaB], 2000⟩ := by
    rw [paraStep_newbuf 4000 ⟨[], [bigParaA], 2005⟩ bigParaB hgB
      (by rw [goTrim_bigParaB, bigParaB_len]; norm_num)
      (by rw [goTrim_bigParaB, bigParaB_len]; norm_num)]
    rw [goTrim_bigParaB, bigParaB_len, chunkFlush_cons, goJoin_singleton, goTrim_bigParaA]
    rfl
  have hfilterA : (fun c => !(goTrim c).isEmpty) bigParaA = true := by
    show (!(goTrim bigParaA).isEmpty) = true
    rw [goTrim_bigParaA, hA]
    rfl
  have hfilterB : (fun c => !(goTrim c).isEmpty) bigParaB = true := by
    show (!(goTrim bigParaB).isEmpty) = true
    rw [goTrim_bigParaB, hB]
    rfl
  have h1 : chunkText bigData 4000 =
      ((chunkFlush ((splitNN bigData).foldl (paraStep 4000) ⟨[], [], 0⟩)).chunks).filter
        (fun c => !(goTrim c).isEmpty) := rfl
  rw [h1, hsplit, List.foldl_cons, hstep1, List.foldl_cons, hstep2, List.foldl_nil,
    chunkFlush_cons, goJoin_singleton, goTrim_bigParaB]
  rw [show ([bigParaA] ++ [bigParaB] : List (List Char)) = bigParaA :: [bigParaB] from rfl,
    List.filter_cons, List.filter_cons, hgA, hgB]
  rfl

theorem chunkLoop_fail_calls (env : ProcEnv) :
    ∀ (cs : List (List Char)) (idx : Nat) (buf : List Char) (calls : Nat)
      (e : String) (cl i : Nat),
      chunkLoop env idx cs buf calls = .fail e cl i → idx ≤ i ∧ cl = calls + (i - idx) + 1 := by
  intro cs
  induction cs with
  | nil =>
    intro idx buf calls e cl i h
    simp [chunkLoop] at h
  | cons c rest ih =>
    intro idx buf calls e cl i h
    unfold chunkLoop at h
    cases hr : (callTTS env.apiKeyEmpty (env.attemptOracle idx)).result with
    | ok audio =>
      rw [hr] at h
      obtain ⟨h1, h2⟩ := ih (idx + 1) (buf ++ audio) (calls + 1) e cl i h
      exact ⟨by omega, by omega⟩
    | error e2 =>
      rw [hr] at h
      cases h
      exact ⟨Nat.le_refl _, by omega⟩

/-- The value `processFile` takes when the chunk loop fails: `Failed`
with `Chunks = len(chunks)` (the total), the first error, no write, and
`i + 1` synthesis invocations where `i` is the failing 0-based index. -/
theorem processFile_chunkfail (env : ProcEnv) (ow : Bool)
    (hskip : (!ow && env.destExists) = false)
    (data : List Char) (hr : env.readResult = .ok data)
    (ht : (goTrim (stripMarkdown data)).isEmpty = false)
    (hc : (chunkText (stripMarkdown data) 4000).isEmpty = false)
    (hm : env.mkdirErr = none)
    (e : String) (calls i : Nat)
    (hl : chunkLoop env 0 (chunkText (stripMarkdown data) 4000) [] 0 = .fail e calls i) :
    processFile env ow =
      ⟨⟨.failed, (chunkText (stripMarkdown data) 4000).length, some e⟩, none, calls, true, true⟩ ∧
      calls = i + 1 := by
  constructor
  · simp [processFile, hskip, hr, ht, hc, hm, hl]
  · obtain ⟨h1, h2⟩ := chunkLoop_fail_calls env _ 0 [] 0 e calls i hl
    omega

/-- C5 (amended): when synthesis of a chunk fails, `processFile` aborts
at the first failing chunk (the number of `callTTS` invocations equals
the failing index plus one) and returns `Failed` carrying the TOTAL
chunk count of the job — `len(chunks)`, not the number of chunks
processed so far — together with the synthesis error
(convert.go lines 216-222). -/
theorem failed_job_reports_total_chunk_count (env : ProcEnv) (ow : Bool)
    (hskip : (!ow && env.destExists) = false)
    (data : List Char) (hr : env.readResult = .ok data)
    (ht : (goTrim (stripMarkdown data)).isEmpty = false)
    (hc : (chunkText (stripMarkdown data) 4000).isEmpty = false)
    (hm : env.mkdirErr = none)
    (e : String) (calls i : Nat)
    (hl : chunkLoop env 0 (chunkText (stripMarkdown data) 4000) [] 0 = .fail e calls i) :
    processFile env ow =
      ⟨⟨.failed, (chunkText (stripMarkdown data) 4000).length, some e⟩, none, calls, true, true⟩ ∧
      calls = i + 1 :=
  processFile_chunkfail env ow hskip data hr ht hc hm e calls i hl

/-- Witness for the amended C5 on a one-chunk job whose synthesis
fails. -/
theorem failed_job_reports_total_chunk_count_witness :
    processFile ⟨false, .ok "Hello.".toList, none, fun _ _ => .apiFail false "boom",
        false, none, none⟩ true =
      ⟨⟨.failed, 1, some "boom"⟩, none, 1, true, true⟩ := by
  have h := failed_job_reports_total_chunk_count
    ⟨false, .ok "Hello.".toList, none, fun _ _ => .apiFail false "boom", false, none, none⟩
    true (by decide) "Hello.".toList rfl (by decide) (by decide) rfl "boom" 1 0 (by decide)
  have h2 : (chunkText (stripMarkdown "Hello.".toList) 4000).length = 1 := by decide
  rw [h2] at h
  exact h.1

/-- C5 counterexample: a two-chunk job whose first synthesis call fails
non-retryably. Exactly one synthesis invocation happened (so zero
chunks had been processed to completion, and at most one was in
flight), yet the `Failed` result carries chunk count 2 — the total —
which is neither 0 nor 1, refuting the claim that the count equals the
number of chunks processed so far at the moment of failure. -/
theorem failed_chunk_count_not_processed_so_far :
    (processFile bigEnv true).result.Status = .failed ∧
      (processFile bigEnv true).ttsCalls = 1 ∧
      (processFile bigEnv true).result.Chunks = 2 ∧
      (processFile bigEnv true).result.Chunks ≠ 0 ∧
      (processFile bigEnv true).result.Chunks ≠ 1 := by
  have hloop : chunkLoop bigEnv 0 [bigParaA, bigParaB] [] 0 = .fail "boom" 1 0 := by
    unfold chunkLoop
    rw [show (callTTS bigEnv.apiKeyEmpty (bigEnv.attemptOracle 0)).result = .error "boom"
      from rfl]
  have hne : (goTrim (stripMarkdown bigData)).isEmpty = false := by
    rw [stripMarkdown_bigData, goTrim_bigData, bigData_not_empty]
  have hcne : (chunkText (stripMarkdown bigData) 4000).isEmpty = false := by
    rw [stripMarkdown_bigData, chunkText_bigData]
    rfl
  have hv := processFile_chunkfail bigEnv true rfl bigData rfl hne hcne rfl
    "boom" 1 0 (by rw [stripMarkdown_bigData, chunkText_bigData]; exact hloop)
  have hlen : (chunkText (stripMarkdown bigData) 4000).length = 2 := by
    rw [stripMarkdown_bigData, chunkText_bigData]
    rfl
  rw [hlen] at hv
  rw [hv.1]
  exact ⟨rfl, rfl, rfl, by decide, by decide⟩

/-! ## C8: concrete normalization scenario -/

/-- C8: `stripMarkdown` on the documented concrete scenario: heading
marker stripped, inline code unwrapped, link replaced by its text,
bullets stripped, the code fence removed, and surrounding blank lines
collapsed and trimmed. -/
theorem stripMarkdown_concrete_scenario :
    stripMarkdown ("# Title\n\nSome `inline` code and a [link](https://example.com).\n\n- bullet one\n- bullet two\n\n```\ncode fence\n```\n").toList =
      ("Title\n\nSome inline code and a link.\n\nbullet one\nbullet two").toList := by
  decide

/-! ## C9: traversal errors during discovery -/

/-- Walk of one matching file followed by a traversal error. -/
def demoWalkPre : List WalkEntry :=
  [⟨["root", "note.md"], "note.md", false, none⟩]

def demoWalkErr : WalkEntry :=
  ⟨["root", "sub"], "sub", true, some "permission denied"⟩

/-- C9 counterexample: a traversal error after one matched file. The
error is surfaced, but the job accumulated before the error is
returned alongside it — the partial job list is not discarded. -/
theorem discovery_error_keeps_partial_jobs :
    (collectMarkdownFiles ["root"] ["out"] "*.md".toList "aac".toList
        (demoWalkPre ++ [demoWalkErr])).2 = some "permission denied" ∧
      (collectMarkdownFiles ["root"] ["out"] "*.md".toList "aac".toList
          (demoWalkPre ++ [demoWalkErr])).1 =
        [⟨["root", "note.md"], ["note.md"], ["out", "note.aac"]⟩] ∧
      (collectMarkdownFiles ["root"] ["out"] "*.md".toList "aac".toList
          (demoWalkPre ++ [demoWalkErr])).1 ≠ [] := by
  refine ⟨by decide, by decide, by decide⟩

theorem collectGo_error_append (root outDir : List String) (pattern format : List Char)
    (en : WalkEntry) (e : String) (he : en.err = some e) (post : List WalkEntry) :
    ∀ (pre : List WalkEntry) (jobs : List fileJob),
      (collectGo root outDir pattern format pre jobs).2 = none →
      collectGo root outDir pattern format (pre ++ en :: post) jobs =
        ((collectGo root outDir pattern format pre jobs).1, some e) := by
  intro pre
  induction pre with
  | nil =>
    intro jobs _
    simp only [List.nil_append, collectGo, he]
  | cons x pre ih =>
    intro jobs h2
    rw [show (x :: pre) ++ en :: post = x :: (pre ++ en :: post) from rfl]
    cases hx : x.err with
    | some ex =>
      simp only [collectGo, hx] at h2
      exact absurd h2 (by simp)
    | none =>
      simp only [collectGo, hx] at h2 ⊢
      cases hd : x.isDir with
      | true =>
        simp only [hd, reduceIte] at h2 ⊢
        exact ih jobs h2
      | false =>
        simp only [hd, reduceIte] at h2 ⊢
        cases hg : globMatch pattern x.name.toList with
        | true =>
          simp only [hg, reduceIte] at h2 ⊢
          cases hrel : relPath root x.path with
          | none =>
            simp only [hrel] at h2
            simp at h2
          | some rel =>
            simp only [hrel] at h2 ⊢
            exact ih _ h2
        | false =>
          simp only [hg, reduceIte] at h2 ⊢
          exact ih jobs h2

/-- C9 (amended): a traversal error aborts discovery — entries after
the failing one are never examined — and the error is surfaced, but
the partial job list accumulated before the error is returned to the
caller alongside the error rather than discarded
(convert.go lines 151-180). -/
theorem discovery_error_surfaces_with_partial_jobs (root outDir : List String)
    (pattern format : List Char) (pre post : List WalkEntry) (en : WalkEntry) (e : String)
    (he : en.err = some e)
    (hpre : (collectMarkdownFiles root outDir pattern format pre).2 = none) :
    collectMarkdownFiles root outDir pattern format (pre ++ en :: post) =
      ((collectMarkdownFiles root outDir pattern format pre).1, some e) := by
  unfold collectMarkdownFiles at hpre ⊢
  exact collectGo_error_append root outDir _ format en e he post pre [] hpre

/-- Witness for the amended C9 on the concrete walk. -/
theorem discovery_error_surfaces_with_partial_jobs_witness :
    (collectMarkdownFiles ["root"] ["out"] "*.md".toList "aac".toList demoWalkPre).2 = none ∧
      collectMarkdownFiles ["root"] ["out"] "*.md".toList "aac".toList
          (demoWalkPre ++ demoWalkErr :: []) =
        ((collectMarkdownFiles ["root"] ["out"] "*.md".toList "aac".toList demoWalkPre).1,
          some "permission denied") :=
  ⟨by decide,
    discovery_error_surfaces_with_partial_jobs ["root"] ["out"] "*.md".toList "aac".toList
      demoWalkPre [] demoWalkErr "permission denied" rfl (by decide)⟩

/-! ## C10: the sentence-split delimiter is consumed -/

/-- Whether the list contains an occurrence of the sentence delimiter
`[.!?]\s+` (a punctuation character followed by white space). -/
def hasSentDelim : List Char → Bool
  | [] => false
  | c :: rest => (isPunct c && headIsSpace rest) || hasSentDelim rest

theorem dropRegexSpaces_length_le (l : List Char) :
    (dropRegexSpaces l).length ≤ l.length := by
  induction l with
  | nil => simp [dropRegexSpaces]
  | cons c rest ih =>
    by_cases h : regexIsSpace c
    · simp only [dropRegexSpaces, if_pos h]
      exact Nat.le_trans ih (by simp)
    · simp [dropRegexSpaces, if_neg h]

theorem splitSentAux_join_length : ∀ (fuel : Nat) (acc l : List Char), l.length ≤ fuel →
    (List.flatten (splitSentAux fuel acc l)).length ≤ acc.length + l.length ∧
      (hasSentDelim l = true →
        (List.flatten (splitSentAux fuel acc l)).length < acc.length + l.length) := by
  intro fuel
  induction fuel with
  | zero =>
    intro acc l hl
    have : l = [] := List.length_eq_zero.mp (Nat.le_zero.mp hl)
    subst this
    simp [splitSentAux, hasSentDelim]
  | succ n ih =>
    intro acc l hl
    cases l with
    | nil => simp [splitSentAux, hasSentDelim]
    | cons c rest =>
      by_cases hcond : (isPunct c && headIsSpace rest) = true
      · cases rest with
        | nil => simp [headIsSpace] at hcond
        | cons r rest2 =>
          have hr : regexIsSpace r = true := by
            simpa [headIsSpace] using (Bool.and_elim_right hcond)
          have hdrop : dropRegexSpaces (r :: rest2) = dropRegexSpaces rest2 := by
            simp [dropRegexSpaces, hr]
          have hlen : (dropRegexSpaces (r :: rest2)).length ≤ rest2.length := by
            rw [hdrop]; exact dropRegexSpaces_length_le rest2
          have hfuel2 : (dropRegexSpaces (r :: rest2)).length ≤ n := by
            simp only [List.length_cons] at hl
            omega
          obtain ⟨hle, _⟩ := ih [] (dropRegexSpaces (r :: rest2)) hfuel2
          simp only [List.length_nil, Nat.zero_add] at hle
          have heq : splitSentAux (n + 1) acc (c :: r :: rest2) =
              acc.reverse :: splitSentAux n [] (dropRegexSpaces (r :: rest2)) := by
            simp only [splitSentAux, hcond, if_true]
          rw [heq]
          have hjoin : (List.flatten (acc.reverse ::
                splitSentAux n [] (dropRegexSpaces (r :: rest2)))).length =
              acc.length +
                (List.flatten (splitSentAux n [] (dropRegexSpaces (r :: rest2)))).length := by
            simp
          rw [hjoin]
          constructor
          · simp only [List.length_cons]
            omega
          · intro _
            simp only [List.length_cons]
            omega
      · simp only [splitSentAux, hcond, Bool.false_eq_true, if_false]
        have hfuel : rest.length ≤ n := by
          simp only [List.length_cons] at hl
          omega
        obtain ⟨hle, hlt⟩ := ih (c :: acc) rest hfuel
        constructor
        · simp only [List.length_cons] at hle ⊢
          omega
        · intro hdel
          have hrest : hasSentDelim rest = true := by
            simp only [hasSentDelim, hcond, Bool.false_or] at hdel
            exact hdel
          have := hlt hrest
          simp only [List.length_cons] at this ⊢
          omega

/-- C10: the split on `[.!?]\s+` consumes the matched delimiter, so
whenever a sentence boundary occurs in a paragraph the concatenation
of the split pieces is strictly shorter than the paragraph — the
end-of-sentence punctuation is gone. Concretely, chunking the over-long
paragraph "Aaaa bbbb. Cccc dddd. Eeee." at limit 10 yields chunks
whose non-final elements lack their terminal periods, and rejoining
them does not reproduce the original characters. -/
theorem sentence_split_consumes_delimiter (para : List Char)
    (h : hasSentDelim para = true) :
    (List.flatten (splitSentences para)).length < para.length ∧
      chunkText ("Aaaa bbbb. Cccc dddd. Eeee.").toList 10 =
        [("Aaaa bbbb").toList, ("Cccc dddd").toList, ("Eeee.").toList] ∧
      goJoin [' '] [("Aaaa bbbb").toList, ("Cccc dddd").toList, ("Eeee.").toList] ≠
        ("Aaaa bbbb. Cccc dddd. Eeee.").toList := by
  refine ⟨?_, by decide, by decide⟩
  have := (splitSentAux_join_length para.length [] para (Nat.le_refl _)).2 h
  simpa [splitSentences] using this

/-- Witness for C10 at the concrete paragraph. -/
theorem sentence_split_consumes_delimiter_witness :
    hasSentDelim ("Aaaa bbbb. Cccc dddd. Eeee.").toList = true ∧
      (List.flatten (splitSentences ("Aaaa bbbb. Cccc dddd. Eeee.").toList)).length <
        ("Aaaa bbbb. Cccc dddd. Eeee.").toList.length :=
  ⟨by decide,
    (sentence_split_consumes_delimiter ("Aaaa bbbb. Cccc dddd. Eeee.").toList (by decide)).1⟩

/-! ## C4: chunk sizes are bounded by the limit -/

/-- `c` is (the trimming of) a single sentence of some paragraph of
`text` whose own length already exceeds `m`. -/
def overlongSentenceOf (text : List Char) (m : Nat) (c : List Char) : Prop :=
  m < c.length ∧ ∃ p ∈ splitNN text, ∃ s ∈ splitSentences (goTrim p), goTrim s = c

/-- A produced sub-chunk is within the limit, or is a single over-long
sentence of the paragraph being split. -/
def sentGood (m : Nat) (para c : List Char) : Prop :=
  c.length ≤ m ∨ (m < c.length ∧ ∃ s ∈ splitSentences para, goTrim s = c)

/-- Invariant of the sentence-packing loop: emitted sub-chunks are
good, the tracked `bufLen` bounds the joined buffer length, and either
`bufLen` is within the limit or the buffer is a single trimmed
over-long sentence. -/
def sentInv (m : Nat) (para : List Char) (st : SentState) : Prop :=
  (∀ c ∈ st.out, sentGood m para c) ∧
  (goJoin [' '] st.buf).length ≤ st.bufLen ∧
  (st.bufLen ≤ m ∨ ∃ s, st.buf = [s] ∧ st.bufLen = s.length ∧ goTrim s = s ∧
    ∃ s0 ∈ splitSentences para, goTrim s0 = s)

theorem sentStep_eq_skip (m : Nat) (st : SentState) (s0 : List Char)
    (h1 : (goTrim s0).isEmpty = true) : sentStep m st s0 = st := by
  simp only [sentStep, h1, if_true]

theorem sentStep_eq_flush (m : Nat) (st : SentState) (s0 : List Char)
    (h1 : (goTrim s0).isEmpty = false) (h2 : st.bufLen + (goTrim s0).length + 1 > m) :
    sentStep m st s0 = ⟨sentFlush st, [goTrim s0], (goTrim s0).length⟩ := by
  simp only [sentStep, h1, Bool.false_eq_true, if_false, if_pos h2]

theorem sentStep_eq_app (m : Nat) (st : SentState) (s0 : List Char)
    (h1 : (goTrim s0).isEmpty = false) (h2 : ¬st.bufLen + (goTrim s0).length + 1 > m) :
    sentStep m st s0 =
      ⟨st.out, st.buf ++ [goTrim s0], st.bufLen + (goTrim s0).length + 1⟩ := by
  simp only [sentStep, h1, Bool.false_eq_true, if_false, if_neg h2]

theorem sentFlush_good (m : Nat) (para : List Char) (st : SentState)
    (hinv : sentInv m para st) : ∀ c ∈ sentFlush st, sentGood m para c := by
  intro c hcm
  unfold sentFlush at hcm
  by_cases hb : st.buf.isEmpty
  · rw [if_pos hb] at hcm
    exact hinv.1 c hcm
  · rw [if_neg hb] at hcm
    rcases List.mem_append.mp hcm with h | h
    · exact hinv.1 c h
    · have hceq : c = goTrim (goJoin [' '] st.buf) := by simpa using h
      rcases hinv.2.2 with hle | ⟨s, hbuf, hbl, hts, s0, hs0, hgs0⟩
      · left
        calc c.length = (goTrim (goJoin [' '] st.buf)).length := by rw [hceq]
          _ ≤ (goJoin [' '] st.buf).length := goTrim_length_le _
          _ ≤ st.bufLen := hinv.2.1
          _ ≤ m := hle
      · have hcs : c = s := by
          rw [hceq, hbuf, goJoin_singleton, hts]
        rcases le_or_lt c.length m with hlc | hlc
        · exact Or.inl hlc
        · exact Or.inr ⟨hlc, s0, hs0, by rw [hgs0, hcs]⟩

theorem sentStep_inv (m : Nat) (para : List Char) (st : SentState) (s0 : List Char)
    (hs0 : s0 ∈ splitSentences para) (hinv : sentInv m para st) :
    sentInv m para (sentStep m st s0) := by
  by_cases h1 : (goTrim s0).isEmpty = true
  · rw [sentStep_eq_skip m st s0 h1]
    exact hinv
  · have h1f : (goTrim s0).isEmpty = false := by simpa using h1
    by_cases h2 : st.bufLen + (goTrim s0).length + 1 > m
    · rw [sentStep_eq_flush m st s0 h1f h2]
      refine ⟨sentFlush_good m para st hinv, ?_, ?_⟩
      · rw [goJoin_singleton]
      · exact Or.inr ⟨goTrim s0, rfl, rfl, goTrim_idem s0, s0, hs0, rfl⟩
    · rw [sentStep_eq_app m st s0 h1f h2]
      refine ⟨hinv.1, ?_,
        Or.inl (show st.bufLen + (goTrim s0).length + 1 ≤ m by omega)⟩
      show (goJoin [' '] (st.buf ++ [goTrim s0])).length ≤ st.bufLen + (goTrim s0).length + 1
      rcases hbuf : st.buf with _ | ⟨b, bs⟩
      · simp only [List.nil_append, goJoin_singleton]
        omega
      · rw [← hbuf, goJoin_snoc [' '] st.buf (goTrim s0) (by rw [hbuf]; simp)]
        have := hinv.2.1
        simp only [List.length_append, List.length_cons, List.length_nil]
        omega

theorem sentFold_inv (m : Nat) (para : List Char) :
    ∀ (L : List (List Char)) (st : SentState), (∀ x ∈ L, x ∈ splitSentences para) →
      sentInv m para st → sentInv m para (L.foldl (sentStep m) st) := by
  intro L
  induction L with
  | nil => intro st _ hinv; exact hinv
  | cons x xs ih =>
    intro st hmem hinv
    rw [List.foldl_cons]
    exact ih (sentStep m st x) (fun y hy => hmem y (List.mem_cons_of_mem _ hy))
      (sentStep_inv m para st x (hmem x (List.mem_cons_self _ _)) hinv)

theorem sentenceChunks_good (m : Nat) (para : List Char) :
    ∀ c ∈ sentenceChunks m para, sentGood m para c := by
  apply sentFlush_good
  apply sentFold_inv m para (splitSentences para) ⟨[], [], 0⟩ (fun x hx => hx)
  refine ⟨fun c hc => absurd hc (List.not_mem_nil c), ?_, Or.inl (Nat.zero_le m)⟩
  simp [goJoin]

/-- A chunk is within the limit, or is a single over-long sentence. -/
def chunkGood (text : List Char) (m : Nat) (c : List Char) : Prop :=
  c.length ≤ m ∨ overlongSentenceOf text m c

/-- Invariant of the paragraph loop: produced chunks are good, the
tracked `currentLen` bounds the joined buffer length, and `currentLen`
never exceeds the limit. -/
def chunkInv (text : List Char) (m : Nat) (st : ChunkState) : Prop :=
  (∀ c ∈ st.chunks, chunkGood text m c) ∧
  (goJoin ['\n', '\n'] st.current).length ≤ st.currentLen ∧ st.currentLen ≤ m

theorem chunkFlush_inv (text : List Char) (m : Nat) (st : ChunkState)
    (hinv : chunkInv text m st) : chunkInv text m (chunkFlush st) := by
  unfold chunkFlush
  by_cases hb : st.current.isEmpty
  · rw [if_pos hb]
    exact hinv
  · rw [if_neg hb]
    refine ⟨?_, by simp [goJoin], Nat.zero_le m⟩
    intro c hc
    rcases List.mem_append.mp hc with h | h
    · exact hinv.1 c h
    · have hceq : c = goTrim (goJoin ['\n', '\n'] st.current) := by simpa using h
      left
      calc c.length = (goTrim (goJoin ['\n', '\n'] st.current)).length := by rw [hceq]
        _ ≤ (goJoin ['\n', '\n'] st.current).length := goTrim_length_le _
        _ ≤ st.currentLen := hinv.2.1
        _ ≤ m := hinv.2.2

theorem paraStep_eq_skip (m : Nat) (st : ChunkState) (p : List Char)
    (h1 : (goTrim p).isEmpty = true) : paraStep m st p = st := by
  simp only [paraStep, h1, if_true]

theorem paraStep_inv (text : List Char) (m : Nat) (st : ChunkState) (p : List Char)
    (hp : p ∈ splitNN text) (hinv : chunkInv text m st) :
    chunkInv text m (paraStep m st p) := by
  by_cases h1 : (goTrim p).isEmpty = true
  · rw [paraStep_eq_skip m st p h1]
    exact hinv
  · have h1f : (goTrim p).isEmpty = false := by simpa using h1
    by_cases h2 : (goTrim p).length > m
    · rw [paraStep_overlong_eq m st p h1f h2]
      refine ⟨?_, hinv.2.1, hinv.2.2⟩
      intro c hc
      rcases List.mem_append.mp hc with h | h
      · exact hinv.1 c h
      · rcases sentenceChunks_good m (goTrim p) c h with hle | ⟨hlt, s, hs, hgs⟩
        · exact Or.inl hle
        · exact Or.inr ⟨hlt, p, hp, s, hs, hgs⟩
    · by_cases h3 : st.currentLen + (goTrim p).length + 2 ≤ m
      · rw [paraStep_fits m st p h1f h2 h3]
        refine ⟨hinv.1, ?_, h3⟩
        show (goJoin ['\n', '\n'] (st.current ++ [goTrim p])).length ≤
          st.currentLen + (goTrim p).length + 2
        rcases hbuf : st.current with _ | ⟨b, bs⟩
        · simp only [List.nil_append, goJoin_singleton]
          omega
        · rw [← hbuf, goJoin_snoc ['\n', '\n'] st.current (goTrim p) (by rw [hbuf]; simp)]
          have := hinv.2.1
          simp only [List.length_append, List.length_cons, List.length_nil]
          omega
      · rw [paraStep_newbuf m st p h1f h2 h3]
        refine ⟨(chunkFlush_inv text m st hinv).1, by rw [goJoin_singleton],
          show (goTrim p).length ≤ m by omega⟩

theorem chunkFold_inv (text : List Char) (m : Nat) :
    ∀ (L : List (List Char)) (st : ChunkState), (∀ x ∈ L, x ∈ splitNN text) →
      chunkInv text m st → chunkInv text m (L.foldl (paraStep m) st) := by
  intro L
  induction L with
  | nil => intro st _ hinv; exact hinv
  | cons x xs ih =>
    intro st hmem hinv
    rw [List.foldl_cons]
    exact ih (paraStep m st x) (fun y hy => hmem y (List.mem_cons_of_mem _ hy))
      (paraStep_inv text m st x (hmem x (List.mem_cons_self _ _)) hinv)

/-- C4: for `maxChars > 0`, every chunk returned by `chunkText` is
non-empty after trimming and has length at most `maxChars`, except
possibly a chunk that is a single (trimmed) sentence of one of the
text's paragraphs whose own length already exceeds `maxChars`
(convert.go lines 71-142). -/
theorem chunkText_respects_limit (text : List Char) (mc : Int) (hm : 0 < mc)
    (c : List Char) (hc : c ∈ chunkText text mc) :
    (goTrim c).isEmpty = false ∧
      (c.length ≤ mc.toNat ∨ overlongSentenceOf text mc.toNat c) := by
  have heff : effMax mc = mc.toNat := by
    unfold effMax
    rw [if_neg (by omega)]
  have h1 : chunkText text mc =
      ((chunkFlush ((splitNN text).foldl (paraStep (effMax mc)) ⟨[], [], 0⟩)).chunks).filter
        (fun c => !(goTrim c).isEmpty) := rfl
  rw [h1, heff] at hc
  obtain ⟨hmem, hfilt⟩ := List.mem_filter.mp hc
  constructor
  · simpa using hfilt
  · have hinv0 : chunkInv text mc.toNat ⟨[], [], 0⟩ :=
      ⟨fun c hc => absurd hc (List.not_mem_nil c), by simp [goJoin], Nat.zero_le _⟩
    have hfold := chunkFold_inv text mc.toNat (splitNN text) ⟨[], [], 0⟩ (fun x hx => hx) hinv0
    have hflush := chunkFlush_inv text mc.toNat _ hfold
    exact hflush.1 c hmem

/-- Witness for C4 at the demo paragraph and limit 10. -/
theorem chunkText_respects_limit_witness :
    (0 : Int) < 10 ∧
      ("Aaaa bbbb".toList ∈ chunkText ("Aaaa bbbb. Cccc dddd. Eeee.").toList 10) ∧
      ((goTrim "Aaaa bbbb".toList).isEmpty = false ∧
        ("Aaaa bbbb".toList.length ≤ (10 : Int).toNat ∨
          overlongSentenceOf ("Aaaa bbbb. Cccc dddd. Eeee.").toList (10 : Int).toNat
            "Aaaa bbbb".toList)) :=
  ⟨by decide, by decide,
    chunkText_respects_limit ("Aaaa bbbb. Cccc dddd. Eeee.").toList 10 (by decide)
      "Aaaa bbbb".toList (by decide)⟩

end MarkLoud
